import Mathlib

/-!
# Verification of the primus-fhe algebra primitives

Shallow embedding of `src/algebra/src/primitive.rs` (widening arithmetic and
rounded division) and `src/algebra/src/random/prg/aes.rs` (AES-128 block
cipher with x86 and aarch64 backends), together with proofs of the
specification's claims about them.

Machine integers of width `w` are modelled as `Nat` values reduced modulo
`2 ^ w` (signed ones as `Int` values in the two's-complement range); fallible
operations (Rust panics) return `Option`.
-/

set_option maxRecDepth 10000

namespace PrimusFhe

/-! ## Widening arithmetic (`src/algebra/src/primitive.rs`)

`Widening` is implemented by the macro `uint_widening_impl!` for
`u8/u16`, `u16/u32`, `u32/u64` and `u64/u128`; the methods below are its
bodies with the bit width `w` as an explicit parameter. -/

/-- Rust `overflowing_add` on a `w`-bit unsigned integer: the wrapped sum and
an overflow flag. -/
def overflowingAdd (w : Nat) (a b : Nat) : Nat × Bool :=
  ((a + b) % 2 ^ w, decide (2 ^ w ≤ a + b))

/-- `Widening::carry_add`: `let (a, b) = self.overflowing_add(rhs);
let (c, d) = a.overflowing_add(carry as Self); (c, b || d)`. -/
def carry_add (w : Nat) (x rhs : Nat) (carry : Bool) : Nat × Bool :=
  let p := overflowingAdd w x rhs
  let q := overflowingAdd w p.1 carry.toNat
  (q.1, p.2 || q.2)

/-- `Widening::widen_mul`: the product is computed in the doubled-width type
`WideT` (which cannot overflow for `w`-bit operands), then split into the
low word (`wide as Self`) and the high word (`(wide >> Self::BITS) as Self`). -/
def widen_mul (w : Nat) (x rhs : Nat) : Nat × Nat :=
  let wide := (x * rhs) % 2 ^ (2 * w)
  (wide % 2 ^ w, (wide >>> w) % 2 ^ w)

/-- `Widening::carry_mul`: `wide = self * rhs + carry` in the doubled-width
type, split into low and high words like `widen_mul`. -/
def carry_mul (w : Nat) (x rhs carry : Nat) : Nat × Nat :=
  let wide := (x * rhs + carry) % 2 ^ (2 * w)
  (wide % 2 ^ w, (wide >>> w) % 2 ^ w)

/-- Little-endian limb chain of `carry_add`: each limb's carry-out feeds the
next limb's carry-in, as in bignum addition. -/
def addLimbs (w : Nat) : List Nat → List Nat → Bool → List Nat × Bool
  | a :: as', b :: bs', c =>
    let p := carry_add w a b c
    let q := addLimbs w as' bs' p.2
    (p.1 :: q.1, q.2)
  | _, _, c => ([], c)

/-- Value of a little-endian limb vector with `w`-bit limbs. -/
def fromLimbs (w : Nat) : List Nat → Nat
  | [] => 0
  | a :: as' => a + 2 ^ w * fromLimbs w as'

/-! ## Rounded and ceiling division (`src/algebra/src/primitive.rs`)

Rust's `/` and `%` panic on a zero divisor; a panic is modelled as `none`.
Additions wrap modulo `2 ^ w` (release-mode overflow behaviour).  Signed
division additionally panics when the quotient overflows
(`MIN / -1`). -/

/-- Rust `/` on unsigned integers: panics (here `none`) on a zero divisor. -/
def checkedDiv (a b : Nat) : Option Nat :=
  if b = 0 then none else some (a / b)

/-- Rust `%` on unsigned integers: panics (here `none`) on a zero divisor. -/
def checkedMod (a b : Nat) : Option Nat :=
  if b = 0 then none else some (a % b)

/-- `div_ceil` (u32): `let d = lhs / rhs; let r = lhs % rhs;
if r > 0 { d + 1 } else { d }`. -/
def div_ceil (lhs rhs : Nat) : Option Nat :=
  match checkedDiv lhs rhs, checkedMod lhs rhs with
  | some d, some r => some (if 0 < r then d + 1 else d)
  | _, _ => none

/-- The body of `unsigned_div_fn!`:
`(dividend + (divisor >> 1)) / divisor`, the addition wrapping at `w` bits. -/
def rounded_div_unsigned (w : Nat) (dividend divisor : Nat) : Option Nat :=
  checkedDiv ((dividend + (divisor >>> 1)) % 2 ^ w) divisor

/-- Interpretation of a `w`-bit two's-complement pattern as an integer. -/
def toZ (w : Nat) (p : Nat) : Int :=
  if p < 2 ^ (w - 1) then (p : Int) else (p : Int) - 2 ^ w

/-- Two's-complement bit pattern of an integer, reduced to `w` bits. -/
def pat (w : Nat) (x : Int) : Nat :=
  (x % (2 ^ w : Int)).toNat

/-- Wrap an integer into the `w`-bit two's-complement range
(release-mode overflow behaviour of signed addition/subtraction). -/
def wrapS (w : Nat) (x : Int) : Int :=
  toZ w (pat w x)

/-- Rust `/` on `w`-bit signed integers: truncating division, panicking (here
`none`) on a zero divisor or on quotient overflow (`MIN / -1`). -/
def checkedSDiv (w : Nat) (a b : Int) : Option Int :=
  if b = 0 then none
  else if a = -(2 ^ (w - 1)) ∧ b = -1 then none
  else some (a.tdiv b)

/-- The body of `signed_div_fn!` on `w`-bit signed integers:
`if dividend ^ divisor >= 0 { (dividend + divisor/2) / divisor }
else { (dividend - divisor/2) / divisor }`.  The branch condition is the
sign bit of the XOR of the two's-complement patterns; the intermediate
addition/subtraction wraps. -/
def rounded_div_signed (w : Nat) (dividend divisor : Int) : Option Int :=
  if pat w dividend ^^^ pat w divisor < 2 ^ (w - 1) then
    checkedSDiv w (wrapS w (dividend + divisor.tdiv 2)) divisor
  else
    checkedSDiv w (wrapS w (dividend - divisor.tdiv 2)) divisor

end PrimusFhe

namespace PrimusFhe

/-! ### Basic facts about the carry-add primitive -/

/-- The exact behaviour of one `carry_add` on in-range operands: the returned
word is the sum modulo `2 ^ w` and the returned flag is the exact carry bit. -/
theorem carry_add_exact (w : Nat) (a b : Nat) (c : Bool)
    (ha : a < 2 ^ w) (hb : b < 2 ^ w) :
    carry_add w a b c =
      ((a + b + c.toNat) % 2 ^ w, decide (2 ^ w ≤ a + b + c.toNat)) := by
  have hc : c.toNat ≤ 1 := by cases c <;> simp [Bool.toNat]
  unfold carry_add overflowingAdd
  dsimp only
  by_cases h1 : 2 ^ w ≤ a + b
  · -- the first addition overflowed; the second cannot overflow again
    have e1 : (a + b) % 2 ^ w = a + b - 2 ^ w := by
      rw [Nat.mod_eq_sub_mod h1, Nat.mod_eq_of_lt]
      omega
    have h5 : 2 ^ w ≤ a + b + c.toNat := by omega
    have e2 : (a + b + c.toNat) % 2 ^ w = a + b + c.toNat - 2 ^ w := by
      rw [Nat.mod_eq_sub_mod h5, Nat.mod_eq_of_lt]
      omega
    rw [e1, e2]
    have h3 : a + b - 2 ^ w + c.toNat < 2 ^ w := by omega
    have h4 : ¬ (2 ^ w ≤ a + b - 2 ^ w + c.toNat) := by omega
    rw [Nat.mod_eq_of_lt h3]
    simp [h1, h4, h5]
    omega
  · -- the first addition did not overflow
    have e1 : (a + b) % 2 ^ w = a + b := Nat.mod_eq_of_lt (by omega)
    rw [e1]
    simp [h1]

/-- The two overflow flags inside `carry_add` are never both set. -/
theorem carry_add_flags_exclusive (w : Nat) (a b : Nat) (c : Bool)
    (ha : a < 2 ^ w) (hb : b < 2 ^ w) :
    ¬ ((overflowingAdd w a b).2 = true ∧
       (overflowingAdd w (overflowingAdd w a b).1 c.toNat).2 = true) := by
  have hc : c.toNat ≤ 1 := by cases c <;> simp [Bool.toNat]
  unfold overflowingAdd
  simp only [decide_eq_true_eq]
  rintro ⟨h1, h2⟩
  have hmod : (a + b) % 2 ^ w = a + b - 2 ^ w := by
    rw [Nat.mod_eq_sub_mod h1, Nat.mod_eq_of_lt (by omega)]
  omega

/-- A boolean carry flag, converted to `Nat`, is the high digit of a sum
below `2 * 2 ^ w`. -/
theorem carry_flag_toNat_eq_div (w s : Nat) (hs : s < 2 * 2 ^ w) :
    (decide (2 ^ w ≤ s)).toNat = s / 2 ^ w := by
  have hpow : 0 < 2 ^ w := Nat.pos_pow_of_pos w (by decide)
  by_cases h : 2 ^ w ≤ s
  · have : s / 2 ^ w = 1 := by
      rw [Nat.div_eq_sub_div hpow h, Nat.div_eq_of_lt (by omega)]
    simp [h, this]
  · have : s / 2 ^ w = 0 := Nat.div_eq_of_lt (by omega)
    simp [h, this]

/-- Splitting off a digit below the base commutes with taking a remainder. -/
theorem digit_mod_split (r y B M : Nat) (hr : r < B) (hM : 0 < M) :
    (r + B * y) % (B * M) = r + B * (y % M) := by
  have hy : y = M * (y / M) + y % M := (Nat.div_add_mod y M).symm
  have e1 : r + B * y = r + B * (y % M) + B * M * (y / M) := by
    calc r + B * y = r + B * (M * (y / M) + y % M) := by rw [← hy]
    _ = r + B * (y % M) + B * M * (y / M) := by ring
  rw [e1, Nat.add_mul_mod_self_left, Nat.mod_eq_of_lt]
  have h2 : y % M ≤ M - 1 := by
    have := Nat.mod_lt y hM
    omega
  have h3 : B * (y % M) ≤ B * (M - 1) := Nat.mul_le_mul_left B h2
  have h4 : B * (M - 1) + B = B * M := by
    cases M with
    | zero => omega
    | succ m => simp [Nat.mul_succ]
  omega

/-- Characterisation of the digit-wise carry over a split sum. -/
theorem digit_carry_split (r y B M : Nat) (hr : r < B) :
    (B * M ≤ r + B * y) ↔ (M ≤ y) := by
  constructor
  · intro h
    by_contra hy
    push_neg at hy
    have h2 : y ≤ M - 1 := by omega
    have h3 : B * y ≤ B * (M - 1) := Nat.mul_le_mul_left B h2
    have h4 : B * (M - 1) + B ≤ B * M := by
      cases M with
      | zero => omega
      | succ m => simp [Nat.mul_succ]
    omega
  · intro h
    have h2 : B * M ≤ B * y := Nat.mul_le_mul_left B h
    omega

/-- Carry-chain addition, generalised over the incoming carry: the chained
limbs represent the modular sum and the outgoing flag is the exact carry. -/
theorem addLimbs_exact (w : Nat) :
    ∀ (as' bs' : List Nat) (c : Bool), as'.length = bs'.length →
    (∀ x ∈ as', x < 2 ^ w) → (∀ x ∈ bs', x < 2 ^ w) →
    fromLimbs w (addLimbs w as' bs' c).1 =
      (fromLimbs w as' + fromLimbs w bs' + c.toNat) % 2 ^ (w * as'.length) ∧
    (addLimbs w as' bs' c).2 =
      decide (2 ^ (w * as'.length) ≤ fromLimbs w as' + fromLimbs w bs' + c.toNat)
  | [], [], c, _, _, _ => by
    have hc : c.toNat ≤ 1 := by cases c <;> simp [Bool.toNat]
    constructor
    · simp only [addLimbs, fromLimbs, List.length_nil, Nat.mul_zero, pow_zero]
      omega
    · simp only [addLimbs, fromLimbs, List.length_nil, Nat.mul_zero, pow_zero]
      cases c <;> simp [Bool.toNat]
  | [], _ :: _, c, h, _, _ => by simp at h
  | _ :: _, [], c, h, _, _ => by simp at h
  | a :: as', b :: bs', c, h, ha, hb => by
    have hpow : 0 < 2 ^ w := Nat.pos_pow_of_pos w (by decide)
    have hc : c.toNat ≤ 1 := by cases c <;> simp [Bool.toNat]
    have ha0 : a < 2 ^ w := ha a (List.mem_cons_self a as')
    have hb0 : b < 2 ^ w := hb b (List.mem_cons_self b bs')
    have ha' : ∀ x ∈ as', x < 2 ^ w := fun x hx => ha x (List.mem_cons_of_mem a hx)
    have hb' : ∀ x ∈ bs', x < 2 ^ w := fun x hx => hb x (List.mem_cons_of_mem b hx)
    have h' : as'.length = bs'.length := by simpa using h
    -- the head limb
    have hp := carry_add_exact w a b c ha0 hb0
    set s := a + b + c.toNat with hs
    have hslt : s < 2 * 2 ^ w := by omega
    have hflag : (carry_add w a b c).2.toNat = s / 2 ^ w := by
      rw [hp]
      exact carry_flag_toNat_eq_div w s hslt
    -- the tail, with the head's carry as the incoming carry
    obtain ⟨ih1, ih2⟩ := addLimbs_exact w as' bs' (carry_add w a b c).2 h' ha' hb'
    set A := fromLimbs w as' with hA
    set B := fromLimbs w bs' with hB
    set k := as'.length with hk
    have hlen : (a :: as').length = k + 1 := by simp [hk]
    have hpowsplit : 2 ^ (w * (k + 1)) = 2 ^ w * 2 ^ (w * k) := by
      rw [Nat.mul_add, Nat.mul_one, Nat.add_comm, pow_add]
    have hval : fromLimbs w (a :: as') + fromLimbs w (b :: bs') + c.toNat =
        s % 2 ^ w + 2 ^ w * (A + B + s / 2 ^ w) := by
      have hdm := Nat.div_add_mod s (2 ^ w)
      simp only [fromLimbs, ← hA, ← hB]
      have h2 : 2 ^ w * (A + B + s / 2 ^ w) =
          2 ^ w * A + 2 ^ w * B + 2 ^ w * (s / 2 ^ w) := by ring
      rw [h2]
      omega
    constructor
    · -- the value of the result limbs
      show (carry_add w a b c).1 + 2 ^ w * fromLimbs w
          (addLimbs w as' bs' (carry_add w a b c).2).1 = _
      rw [ih1, hlen, hval, hpowsplit, hflag]
      rw [digit_mod_split (s % 2 ^ w) (A + B + s / 2 ^ w) (2 ^ w) (2 ^ (w * k))
        (Nat.mod_lt s hpow) (Nat.pos_pow_of_pos (w * k) (by decide))]
      rw [hp]
    · -- the outgoing carry
      show (addLimbs w as' bs' (carry_add w a b c).2).2 = _
      rw [ih2, hlen, hval, hpowsplit, hflag]
      rw [decide_eq_decide]
      exact (digit_carry_split (s % 2 ^ w) (A + B + s / 2 ^ w) (2 ^ w)
        (2 ^ (w * k)) (Nat.mod_lt s hpow)).symm

/-- C4: folding `carry_add` over the limbs of two `k`-limb little-endian
numbers `A` and `B`, feeding each carry-out into the next limb's carry-in and
starting from a `false` carry, produces the `k`-limb little-endian
representation of `(A + B) mod 2^(kW)`, and the final carry-out is `true` iff
`A + B` exceeds `2^(kW) - 1`.  Stated for every limb width `w`, which covers
the widths 8, 16, 32 and 64 instantiated by `uint_widening_impl!`. -/
theorem C4_carry_add_chain (w : Nat) (as' bs' : List Nat)
    (hlen : as'.length = bs'.length)
    (ha : ∀ x ∈ as', x < 2 ^ w) (hb : ∀ x ∈ bs', x < 2 ^ w) :
    fromLimbs w (addLimbs w as' bs' false).1 =
      (fromLimbs w as' + fromLimbs w bs') % 2 ^ (w * as'.length) ∧
    ((addLimbs w as' bs' false).2 = true ↔
      2 ^ (w * as'.length) - 1 < fromLimbs w as' + fromLimbs w bs') := by
  obtain ⟨h1, h2⟩ := addLimbs_exact w as' bs' false hlen ha hb
  have hpow : 0 < 2 ^ (w * as'.length) := Nat.pos_pow_of_pos _ (by decide)
  simp only [Bool.toNat_false, Nat.add_zero] at h1 h2
  refine ⟨h1, ?_⟩
  rw [h2]
  simp only [decide_eq_true_eq]
  omega

/-- Witness for C4 at width 8 with limbs `[255, 1] + [1, 2]`
(that is, `511 + 513 = 1024`). -/
theorem C4_carry_add_chain_witness :
    fromLimbs 8 (addLimbs 8 [255, 1] [1, 2] false).1 =
      (fromLimbs 8 [255, 1] + fromLimbs 8 [1, 2]) % 2 ^ (8 * [255, 1].length) ∧
    ((addLimbs 8 [255, 1] [1, 2] false).2 = true ↔
      2 ^ (8 * [255, 1].length) - 1 < fromLimbs 8 [255, 1] + fromLimbs 8 [1, 2]) :=
  C4_carry_add_chain 8 [255, 1] [1, 2] rfl (by decide) (by decide)

/-- C5: for `w`-bit operands, `widen_mul` splits the exact product:
`high * 2^w + low = a * b` over unbounded integers, the low word being the
truncated product and the high word the product shifted right by `w` bits.
Stated for every width `w`, covering the instantiated widths 8, 16, 32, 64. -/
theorem C5_widen_mul_exact (w a b : Nat) (ha : a < 2 ^ w) (hb : b < 2 ^ w) :
    (widen_mul w a b).2 * 2 ^ w + (widen_mul w a b).1 = a * b ∧
    (widen_mul w a b).1 = a * b % 2 ^ w ∧
    (widen_mul w a b).2 = a * b / 2 ^ w := by
  have hpow : 0 < 2 ^ w := Nat.pos_pow_of_pos w (by decide)
  have hwide : a * b < 2 ^ (2 * w) := by
    have h1 : a * b < 2 ^ w * 2 ^ w := Nat.mul_lt_mul_of_lt_of_le ha (le_of_lt hb) hpow
    calc a * b < 2 ^ w * 2 ^ w := h1
      _ = 2 ^ (2 * w) := by rw [two_mul, pow_add]
  have hhi : a * b / 2 ^ w < 2 ^ w := by
    rw [Nat.div_lt_iff_lt_mul hpow]
    calc a * b < 2 ^ (2 * w) := hwide
      _ = 2 ^ w * 2 ^ w := by rw [two_mul, pow_add]
  unfold widen_mul
  dsimp only
  rw [Nat.mod_eq_of_lt hwide, Nat.shiftRight_eq_div_pow, Nat.mod_eq_of_lt hhi]
  refine ⟨?_, rfl, rfl⟩
  rw [Nat.mul_comm]
  exact Nat.div_add_mod (a * b) (2 ^ w)

/-- Witness for C5 at width 8 with `a = 200`, `b = 100`. -/
theorem C5_widen_mul_exact_witness :
    (widen_mul 8 200 100).2 * 2 ^ 8 + (widen_mul 8 200 100).1 = 200 * 100 ∧
    (widen_mul 8 200 100).1 = 200 * 100 % 2 ^ 8 ∧
    (widen_mul 8 200 100).2 = 200 * 100 / 2 ^ 8 :=
  C5_widen_mul_exact 8 200 100 (by decide) (by decide)

/-- C6: for `w`-bit operands, the wide intermediate `a * b + carry` of
`carry_mul` always fits in `2w` bits (so the wide addition cannot overflow),
and the two returned words split `a * b + carry` exactly. -/
theorem C6_carry_mul_exact (w a b c : Nat)
    (ha : a < 2 ^ w) (hb : b < 2 ^ w) (hc : c < 2 ^ w) :
    a * b + c < 2 ^ (2 * w) ∧
    (carry_mul w a b c).2 * 2 ^ w + (carry_mul w a b c).1 = a * b + c := by
  have hpow : 0 < 2 ^ w := Nat.pos_pow_of_pos w (by decide)
  have hwide : a * b + c < 2 ^ (2 * w) := by
    have h1 : a * b ≤ (2 ^ w - 1) * (2 ^ w - 1) :=
      Nat.mul_le_mul (by omega) (by omega)
    have h2 : (2 ^ w - 1) * (2 ^ w - 1) + (2 ^ w - 1) = (2 ^ w - 1) * 2 ^ w := by
      cases h : 2 ^ w with
      | zero => omega
      | succ n => simp [Nat.mul_succ]
    have h3 : (2 ^ w - 1) * 2 ^ w < 2 ^ w * 2 ^ w :=
      Nat.mul_lt_mul_of_lt_of_le (by omega) (le_refl _) hpow
    calc a * b + c ≤ (2 ^ w - 1) * (2 ^ w - 1) + (2 ^ w - 1) := by omega
      _ = (2 ^ w - 1) * 2 ^ w := h2
      _ < 2 ^ w * 2 ^ w := h3
      _ = 2 ^ (2 * w) := by rw [two_mul, pow_add]
  have hhi : (a * b + c) / 2 ^ w < 2 ^ w := by
    rw [Nat.div_lt_iff_lt_mul hpow]
    calc a * b + c < 2 ^ (2 * w) := hwide
      _ = 2 ^ w * 2 ^ w := by rw [two_mul, pow_add]
  refine ⟨hwide, ?_⟩
  unfold carry_mul
  dsimp only
  rw [Nat.mod_eq_of_lt hwide, Nat.shiftRight_eq_div_pow, Nat.mod_eq_of_lt hhi]
  rw [Nat.mul_comm]
  exact Nat.div_add_mod (a * b + c) (2 ^ w)

/-- Witness for C6 at width 8 with `a = 255`, `b = 255`, `carry = 255`. -/
theorem C6_carry_mul_exact_witness :
    255 * 255 + 255 < 2 ^ (2 * 8) ∧
    (carry_mul 8 255 255 255).2 * 2 ^ 8 + (carry_mul 8 255 255 255).1 =
      255 * 255 + 255 :=
  C6_carry_mul_exact 8 255 255 255 (by decide) (by decide) (by decide)

/-- C10: the two constituent overflow flags inside `carry_add` are never both
set, the returned boolean (their OR) equals the exact arithmetic carry bit
`(a + b + carry) / 2^w`, and the returned word is `(a + b + carry) mod 2^w` —
so the output boolean is a true chainable carry flag. -/
theorem C10_carry_add_is_true_carry (w a b : Nat) (c : Bool)
    (ha : a < 2 ^ w) (hb : b < 2 ^ w) :
    (¬ ((overflowingAdd w a b).2 = true ∧
        (overflowingAdd w (overflowingAdd w a b).1 c.toNat).2 = true)) ∧
    (carry_add w a b c).2.toNat = (a + b + c.toNat) / 2 ^ w ∧
    (carry_add w a b c).1 = (a + b + c.toNat) % 2 ^ w := by
  have hc : c.toNat ≤ 1 := by cases c <;> simp [Bool.toNat]
  refine ⟨carry_add_flags_exclusive w a b c ha hb, ?_, ?_⟩
  · rw [carry_add_exact w a b c ha hb]
    exact carry_flag_toNat_eq_div w (a + b + c.toNat) (by omega)
  · rw [carry_add_exact w a b c ha hb]

/-- Witness for C10 at width 8 with `a = 200`, `b = 100`, `carry = true`. -/
theorem C10_carry_add_is_true_carry_witness :
    (¬ ((overflowingAdd 8 200 100).2 = true ∧
        (overflowingAdd 8 (overflowingAdd 8 200 100).1 (true : Bool).toNat).2 = true)) ∧
    (carry_add 8 200 100 true).2.toNat = (200 + 100 + (true : Bool).toNat) / 2 ^ 8 ∧
    (carry_add 8 200 100 true).1 = (200 + 100 + (true : Bool).toNat) % 2 ^ 8 :=
  C10_carry_add_is_true_carry 8 200 100 true (by decide) (by decide)

/-! ### Division claims -/

/-- The `w`-bit two's-complement range. -/
def inRange (w : Nat) (x : Int) : Prop :=
  -(2 ^ (w - 1)) ≤ x ∧ x < 2 ^ (w - 1)

/-- Pattern of a non-negative in-range integer. -/
theorem pat_of_nonneg (w : Nat) (x : Int) (h0 : 0 ≤ x) (h1 : x < 2 ^ w) :
    pat w x = x.toNat := by
  unfold pat
  rw [Int.emod_eq_of_lt h0 h1]

/-- Pattern of a negative in-range integer. -/
theorem pat_of_neg (w : Nat) (x : Int) (h0 : -(2 ^ w) ≤ x) (h1 : x < 0) :
    pat w x = (x + 2 ^ w).toNat := by
  unfold pat
  have h2 : x % (2 ^ w : Int) = (x + 2 ^ w) % (2 ^ w : Int) := by
    have h := Int.add_mul_emod_self_left x (2 ^ w : Int) 1
    rw [mul_one] at h
    exact h.symm
  have hp : (0 : Int) < 2 ^ w := by positivity
  rw [h2, Int.emod_eq_of_lt (by omega) (by omega)]

/-- The pattern of any integer is below `2 ^ w`. -/
theorem pat_lt (w : Nat) (x : Int) : pat w x < 2 ^ w := by
  unfold pat
  have hp : (0 : Int) < 2 ^ w := by positivity
  have h1 : x % (2 ^ w : Int) < 2 ^ w := Int.emod_lt_of_pos x hp
  have h2 : 0 ≤ x % (2 ^ w : Int) := Int.emod_nonneg x (by omega)
  have hc : ((2 ^ w : Nat) : Int) = (2 ^ w : Int) := by push_cast; ring
  omega

/-- The top bit of a number below `2 ^ (n + 1)` decides whether the number
reaches `2 ^ n`. -/
theorem msb_testBit (n x : Nat) (hx : x < 2 ^ (n + 1)) :
    x.testBit n = decide (2 ^ n ≤ x) := by
  have hp : 0 < 2 ^ n := Nat.pos_pow_of_pos n (by decide)
  have hx2 : x < 2 * 2 ^ n := by
    calc x < 2 ^ (n + 1) := hx
      _ = 2 * 2 ^ n := by rw [pow_succ, Nat.mul_comm]
  rw [Nat.testBit_to_div_mod]
  by_cases h : 2 ^ n ≤ x
  · have h1 : 1 ≤ x / 2 ^ n := (Nat.one_le_div_iff hp).mpr h
    have h2 : x / 2 ^ n < 2 := by
      rw [Nat.div_lt_iff_lt_mul hp]
      omega
    have : x / 2 ^ n = 1 := by omega
    simp [this, h]
  · have : x / 2 ^ n = 0 := Nat.div_eq_of_lt (by omega)
    simp [this, h]

/-- The sign bit of an XOR of `w`-bit patterns is clear exactly when the two
sign bits agree. -/
theorem xor_sign (w : Nat) (hw : 1 ≤ w) (x y : Nat)
    (hx : x < 2 ^ w) (hy : y < 2 ^ w) :
    (x ^^^ y < 2 ^ (w - 1)) ↔ ((2 ^ (w - 1) ≤ x) ↔ (2 ^ (w - 1) ≤ y)) := by
  have hsucc : w = (w - 1) + 1 := by omega
  rw [hsucc] at hx hy
  have hxor : x ^^^ y < 2 ^ ((w - 1) + 1) := Nat.xor_lt_two_pow hx hy
  have h1 : x ^^^ y < 2 ^ (w - 1) ↔ (x ^^^ y).testBit (w - 1) = false := by
    rw [msb_testBit (w - 1) (x ^^^ y) hxor]
    simp
  rw [h1, Nat.testBit_xor, msb_testBit (w - 1) x hx, msb_testBit (w - 1) y hy]
  by_cases h2 : 2 ^ (w - 1) ≤ x <;> by_cases h3 : 2 ^ (w - 1) ≤ y <;>
    simp [h2, h3]

/-- The branch condition of `rounded_div_signed` — the sign bit of
`dividend ^ divisor` being clear — says exactly that the operands' signs
agree. -/
theorem sign_cond_iff (w : Nat) (hw : 1 ≤ w) (d v : Int)
    (hd : inRange w d) (hv : inRange w v) :
    (pat w d ^^^ pat w v < 2 ^ (w - 1)) ↔ ((0 ≤ d) ↔ (0 ≤ v)) := by
  obtain ⟨hd0, hd1⟩ := hd
  obtain ⟨hv0, hv1⟩ := hv
  have hsucc : w = (w - 1) + 1 := by omega
  have hhalf : (2 : Int) ^ w = 2 * 2 ^ (w - 1) := by
    conv_lhs => rw [hsucc]
    rw [pow_succ, mul_comm]
  have hhalfN : (2 : Nat) ^ w = 2 * 2 ^ (w - 1) := by
    conv_lhs => rw [hsucc]
    rw [pow_succ, Nat.mul_comm]
  have hcast : ((2 ^ (w - 1) : Nat) : Int) = (2 ^ (w - 1) : Int) := by
    push_cast; ring
  have hpos : (0 : Int) < 2 ^ (w - 1) := by positivity
  have key : ∀ x : Int, -(2 ^ (w - 1)) ≤ x → x < 2 ^ (w - 1) →
      ((2 ^ (w - 1) ≤ pat w x) ↔ ¬ (0 ≤ x)) := by
    intro x h0 h1
    by_cases hx : 0 ≤ x
    · rw [pat_of_nonneg w x hx (by omega)]
      simp only [hx, iff_true, not_true_eq_false, iff_false, not_le]
      omega
    · rw [pat_of_neg w x (by omega) (by omega)]
      simp only [hx, iff_true, not_false_eq_true, iff_true]
      omega
  rw [xor_sign w hw (pat w d) (pat w v) (pat_lt w d) (pat_lt w v),
    key d hd0 hd1, key v hv0 hv1]
  tauto

/-- Wrapping to `w` bits is the identity on the `w`-bit range. -/
theorem wrapS_eq_self (w : Nat) (hw : 1 ≤ w) (x : Int)
    (h0 : -(2 ^ (w - 1)) ≤ x) (h1 : x < 2 ^ (w - 1)) : wrapS w x = x := by
  have hsucc : w = (w - 1) + 1 := by omega
  have hhalf : (2 : Int) ^ w = 2 * 2 ^ (w - 1) := by
    conv_lhs => rw [hsucc]
    rw [pow_succ, mul_comm]
  have hhalfN : (2 : Nat) ^ w = 2 * 2 ^ (w - 1) := by
    conv_lhs => rw [hsucc]
    rw [pow_succ, Nat.mul_comm]
  have hcast : ((2 ^ (w - 1) : Nat) : Int) = (2 ^ (w - 1) : Int) := by
    push_cast; ring
  have hcastw : ((2 ^ w : Nat) : Int) = (2 ^ w : Int) := by
    push_cast; ring
  have hpos : (0 : Int) < 2 ^ (w - 1) := by positivity
  unfold wrapS toZ
  by_cases hx : 0 ≤ x
  · rw [pat_of_nonneg w x hx (by omega)]
    have hc : x.toNat < 2 ^ (w - 1) := by omega
    rw [if_pos hc]
    omega
  · rw [pat_of_neg w x (by omega) (by omega)]
    have hc : ¬ ((x + 2 ^ w).toNat < 2 ^ (w - 1)) := by omega
    rw [if_neg hc]
    omega

/-- C7 counterexample: at width 8 the claim's unbounded formula
`(dividend + divisor/2) / divisor` gives `(255 + 1) / 2 = 128`, but the code
returns `0` because the intermediate sum wraps at 8 bits. -/
theorem C7_counterexample :
    rounded_div_unsigned 8 255 2 ≠ some ((255 + 2 / 2) / 2) := by decide

/-- C7 (amended): the rounded-division formulas hold for every nonzero
divisor provided the intermediate sum or difference fits in the operand
width, and — in the signed same-sign case — the division itself does not
overflow. -/
theorem C7_rounded_div_amended :
    (∀ w d v : Nat, v ≠ 0 → d + v / 2 < 2 ^ w →
      rounded_div_unsigned w d v = some ((d + v / 2) / v)) ∧
    (∀ (w : Nat) (d v : Int), 1 ≤ w → inRange w d → inRange w v → v ≠ 0 →
      (((0 ≤ d) ↔ (0 ≤ v)) → inRange w (d + v.tdiv 2) →
        ¬ (d + v.tdiv 2 = -(2 ^ (w - 1)) ∧ v = -1) →
        rounded_div_signed w d v = some ((d + v.tdiv 2).tdiv v)) ∧
      ((¬ ((0 ≤ d) ↔ (0 ≤ v))) → inRange w (d - v.tdiv 2) →
        rounded_div_signed w d v = some ((d - v.tdiv 2).tdiv v))) := by
  constructor
  · intro w d v hv hov
    unfold rounded_div_unsigned checkedDiv
    have hs : v >>> 1 = v / 2 := by
      rw [Nat.shiftRight_eq_div_pow]
    rw [hs, Nat.mod_eq_of_lt hov, if_neg hv]
  · intro w d v hw hd hv hvne
    constructor
    · intro hsame hmid hnof
      unfold rounded_div_signed
      rw [if_pos ((sign_cond_iff w hw d v hd hv).mpr hsame),
        wrapS_eq_self w hw _ hmid.1 hmid.2]
      unfold checkedSDiv
      rw [if_neg hvne, if_neg hnof]
    · intro hdiff hmid
      unfold rounded_div_signed
      rw [if_neg ?side, wrapS_eq_self w hw _ hmid.1 hmid.2]
      case side =>
        rw [sign_cond_iff w hw d v hd hv]
        exact hdiff
      unfold checkedSDiv
      rw [if_neg hvne, if_neg ?nof]
      case nof =>
        rintro ⟨ha, hb⟩
        -- signs differ and the divisor is -1, so the dividend is non-negative
        have hv0 : ¬ (0 ≤ v) := by rw [hb]; omega
        have hd0 : 0 ≤ d := by tauto
        have hhalf : v.tdiv 2 = 0 := by rw [hb]; decide
        rw [hhalf] at ha
        have hpos : (0 : Int) < 2 ^ (w - 1) := by positivity
        omega

/-- Witness for the amended C7: width 8, `6 / 4` rounds to `2`, and
`(-7) / 2` (signs differing) gives `-4`. -/
theorem C7_rounded_div_amended_witness :
    rounded_div_unsigned 8 6 4 = some ((6 + 4 / 2) / 4) ∧
    rounded_div_signed 8 (-7) 2 = some (((-7 : Int) - (2 : Int).tdiv 2).tdiv 2) := by
  constructor
  · exact C7_rounded_div_amended.1 8 6 4 (by decide) (by decide)
  · exact (C7_rounded_div_amended.2 8 (-7) 2 (by decide)
      (by constructor <;> decide) (by constructor <;> decide) (by decide)).2
      (by decide) (by constructor <;> decide)

/-- C8: rounded division (unsigned and signed, every width) and ceiling
division fail with a division-by-zero condition on a zero divisor. -/
theorem C8_division_by_zero_fails (w : Nat) (d : Nat) (ds : Int) (lhs : Nat) :
    rounded_div_unsigned w d 0 = none ∧
    rounded_div_signed w ds 0 = none ∧
    div_ceil lhs 0 = none := by
  refine ⟨?_, ?_, ?_⟩
  · unfold rounded_div_unsigned checkedDiv
    simp
  · unfold rounded_div_signed checkedSDiv
    split <;> simp
  · unfold div_ceil checkedDiv checkedMod
    simp

/-- Witness for C8 at width 8 with dividend 7. -/
theorem C8_division_by_zero_fails_witness :
    rounded_div_unsigned 8 7 0 = none ∧
    rounded_div_signed 8 (-7) 0 = none ∧
    div_ceil 7 0 = none :=
  C8_division_by_zero_fails 8 7 (-7) 7

/-- C9: the unsigned rounded division adds `dividend + (divisor >> 1)` in the
operand width with no overflow guard: for every width `w ≥ 2` (in particular
8, 16, 32, 64) there are in-range inputs with a nonzero divisor whose sum
overflows; the result is then `((dividend + divisor/2) mod 2^w) / divisor`,
and concretely `rounded_div_u8(255, 2) = 0` even though half-up rounding
would give `128`. -/
theorem C9_unsigned_rounded_div_overflow_wraps :
    (∀ w, 2 ≤ w → ∃ d v : Nat, v ≠ 0 ∧ d < 2 ^ w ∧ v < 2 ^ w ∧
      2 ^ w - 1 < d + v / 2) ∧
    (∀ w d v : Nat, v ≠ 0 →
      rounded_div_unsigned w d v = some (((d + v / 2) % 2 ^ w) / v)) ∧
    rounded_div_unsigned 8 255 2 = some 0 ∧ (255 + 2 / 2) / 2 = 128 := by
  refine ⟨?_, ?_, by decide, by decide⟩
  · intro w hw
    have hp : 0 < 2 ^ w := Nat.pos_pow_of_pos w (by decide)
    have h4 : 4 ≤ 2 ^ w := by
      calc (4 : Nat) = 2 ^ 2 := by decide
        _ ≤ 2 ^ w := Nat.pow_le_pow_right (by decide) hw
    exact ⟨2 ^ w - 1, 2, by decide, by omega, by omega, by omega⟩
  · intro w d v hv
    unfold rounded_div_unsigned checkedDiv
    have hs : v >>> 1 = v / 2 := by
      rw [Nat.shiftRight_eq_div_pow]
    rw [hs, if_neg hv]

/-- Witness for C9: the overflowing pair exists at width 8, and the wrapped
formula evaluates there. -/
theorem C9_unsigned_rounded_div_overflow_wraps_witness :
    (∃ d v : Nat, v ≠ 0 ∧ d < 2 ^ 8 ∧ v < 2 ^ 8 ∧ 2 ^ 8 - 1 < d + v / 2) ∧
    rounded_div_unsigned 8 255 2 = some (((255 + 2 / 2) % 2 ^ 8) / 2) :=
  ⟨C9_unsigned_rounded_div_overflow_wraps.1 8 (by decide),
   C9_unsigned_rounded_div_overflow_wraps.2.1 8 255 2 (by decide)⟩


/-! ## AES-128 (`src/algebra/src/random/prg/aes.rs`)

A `Block` is the 128-bit SIMD value `Block(__m128i)` viewed as its 16 bytes
in memory order (byte `i` of the register), which is also the column-major
order of the AES state: byte index `4*c + r` is row `r` of column `c`.
The hardware instructions used by the two backends
(`_mm_aeskeygenassist_si128`, `_mm_aesenc_si128`, `_mm_aesenclast_si128`,
`_mm_shuffle_ps`, `_mm_shuffle_epi32`, `_mm_xor_si128`, `vaeseq_u8`,
`vaesmcq_u8`, `veorq_u8`) are given their architecture-defined semantics. -/

/-- The AES S-box (FIPS-197 figure 7). -/
def sboxTable : List Nat := [
  0x63, 0x7c, 0x77, 0x7b, 0xf2, 0x6b, 0x6f, 0xc5,
  0x30, 0x01, 0x67, 0x2b, 0xfe, 0xd7, 0xab, 0x76,
  0xca, 0x82, 0xc9, 0x7d, 0xfa, 0x59, 0x47, 0xf0,
  0xad, 0xd4, 0xa2, 0xaf, 0x9c, 0xa4, 0x72, 0xc0,
  0xb7, 0xfd, 0x93, 0x26, 0x36, 0x3f, 0xf7, 0xcc,
  0x34, 0xa5, 0xe5, 0xf1, 0x71, 0xd8, 0x31, 0x15,
  0x04, 0xc7, 0x23, 0xc3, 0x18, 0x96, 0x05, 0x9a,
  0x07, 0x12, 0x80, 0xe2, 0xeb, 0x27, 0xb2, 0x75,
  0x09, 0x83, 0x2c, 0x1a, 0x1b, 0x6e, 0x5a, 0xa0,
  0x52, 0x3b, 0xd6, 0xb3, 0x29, 0xe3, 0x2f, 0x84,
  0x53, 0xd1, 0x00, 0xed, 0x20, 0xfc, 0xb1, 0x5b,
  0x6a, 0xcb, 0xbe, 0x39, 0x4a, 0x4c, 0x58, 0xcf,
  0xd0, 0xef, 0xaa, 0xfb, 0x43, 0x4d, 0x33, 0x85,
  0x45, 0xf9, 0x02, 0x7f, 0x50, 0x3c, 0x9f, 0xa8,
  0x51, 0xa3, 0x40, 0x8f, 0x92, 0x9d, 0x38, 0xf5,
  0xbc, 0xb6, 0xda, 0x21, 0x10, 0xff, 0xf3, 0xd2,
  0xcd, 0x0c, 0x13, 0xec, 0x5f, 0x97, 0x44, 0x17,
  0xc4, 0xa7, 0x7e, 0x3d, 0x64, 0x5d, 0x19, 0x73,
  0x60, 0x81, 0x4f, 0xdc, 0x22, 0x2a, 0x90, 0x88,
  0x46, 0xee, 0xb8, 0x14, 0xde, 0x5e, 0x0b, 0xdb,
  0xe0, 0x32, 0x3a, 0x0a, 0x49, 0x06, 0x24, 0x5c,
  0xc2, 0xd3, 0xac, 0x62, 0x91, 0x95, 0xe4, 0x79,
  0xe7, 0xc8, 0x37, 0x6d, 0x8d, 0xd5, 0x4e, 0xa9,
  0x6c, 0x56, 0xf4, 0xea, 0x65, 0x7a, 0xae, 0x08,
  0xba, 0x78, 0x25, 0x2e, 0x1c, 0xa6, 0xb4, 0xc6,
  0xe8, 0xdd, 0x74, 0x1f, 0x4b, 0xbd, 0x8b, 0x8a,
  0x70, 0x3e, 0xb5, 0x66, 0x48, 0x03, 0xf6, 0x0e,
  0x61, 0x35, 0x57, 0xb9, 0x86, 0xc1, 0x1d, 0x9e,
  0xe1, 0xf8, 0x98, 0x11, 0x69, 0xd9, 0x8e, 0x94,
  0x9b, 0x1e, 0x87, 0xe9, 0xce, 0x55, 0x28, 0xdf,
  0x8c, 0xa1, 0x89, 0x0d, 0xbf, 0xe6, 0x42, 0x68,
  0x41, 0x99, 0x2d, 0x0f, 0xb0, 0x54, 0xbb, 0x16]

/-- S-box lookup. -/
def sbox (b : Nat) : Nat := sboxTable.getD b 0

/-- A 128-bit block as its 16 bytes in memory order. -/
structure Block where
  s0 : Nat
  s1 : Nat
  s2 : Nat
  s3 : Nat
  s4 : Nat
  s5 : Nat
  s6 : Nat
  s7 : Nat
  s8 : Nat
  s9 : Nat
  s10 : Nat
  s11 : Nat
  s12 : Nat
  s13 : Nat
  s14 : Nat
  s15 : Nat
  deriving DecidableEq

/-- `Block::default()` / `Block::ZERO`: the all-zero block. -/
def blockZero : Block := ⟨0, 0, 0, 0, 0, 0, 0, 0, 0, 0, 0, 0, 0, 0, 0, 0⟩

/-- `_mm_xor_si128` / `veorq_u8`: bytewise XOR of two blocks. -/
def xorB (x y : Block) : Block :=
  ⟨x.s0 ^^^ y.s0, x.s1 ^^^ y.s1, x.s2 ^^^ y.s2, x.s3 ^^^ y.s3,
   x.s4 ^^^ y.s4, x.s5 ^^^ y.s5, x.s6 ^^^ y.s6, x.s7 ^^^ y.s7,
   x.s8 ^^^ y.s8, x.s9 ^^^ y.s9, x.s10 ^^^ y.s10, x.s11 ^^^ y.s11,
   x.s12 ^^^ y.s12, x.s13 ^^^ y.s13, x.s14 ^^^ y.s14, x.s15 ^^^ y.s15⟩

/-- AES SubBytes: the S-box applied to every byte of the state. -/
def subBytes (x : Block) : Block :=
  ⟨sbox x.s0, sbox x.s1, sbox x.s2, sbox x.s3,
   sbox x.s4, sbox x.s5, sbox x.s6, sbox x.s7,
   sbox x.s8, sbox x.s9, sbox x.s10, sbox x.s11,
   sbox x.s12, sbox x.s13, sbox x.s14, sbox x.s15⟩

/-- AES ShiftRows: row `r` of the column-major state rotates left by `r`,
so output byte `4*c + r` is input byte `4*((c + r) % 4) + r`. -/
def shiftRows (x : Block) : Block :=
  ⟨x.s0, x.s5, x.s10, x.s15,
   x.s4, x.s9, x.s14, x.s3,
   x.s8, x.s13, x.s2, x.s7,
   x.s12, x.s1, x.s6, x.s11⟩

/-- Multiplication by `x` in GF(2^8) modulo `x^8 + x^4 + x^3 + x + 1`. -/
def xtime (b : Nat) : Nat :=
  if b < 128 then 2 * b else (2 * b) ^^^ 0x11b

/-- AES MixColumns on the column-major state: each column `[a0, a1, a2, a3]`
becomes `[2*a0 + 3*a1 + a2 + a3, a0 + 2*a1 + 3*a2 + a3,
a0 + a1 + 2*a2 + 3*a3, 3*a0 + a1 + a2 + 2*a3]` over GF(2^8). -/
def mixColumns (x : Block) : Block :=
  ⟨xtime x.s0 ^^^ (xtime x.s1 ^^^ x.s1) ^^^ x.s2 ^^^ x.s3,
   x.s0 ^^^ xtime x.s1 ^^^ (xtime x.s2 ^^^ x.s2) ^^^ x.s3,
   x.s0 ^^^ x.s1 ^^^ xtime x.s2 ^^^ (xtime x.s3 ^^^ x.s3),
   (xtime x.s0 ^^^ x.s0) ^^^ x.s1 ^^^ x.s2 ^^^ xtime x.s3,
   xtime x.s4 ^^^ (xtime x.s5 ^^^ x.s5) ^^^ x.s6 ^^^ x.s7,
   x.s4 ^^^ xtime x.s5 ^^^ (xtime x.s6 ^^^ x.s6) ^^^ x.s7,
   x.s4 ^^^ x.s5 ^^^ xtime x.s6 ^^^ (xtime x.s7 ^^^ x.s7),
   (xtime x.s4 ^^^ x.s4) ^^^ x.s5 ^^^ x.s6 ^^^ xtime x.s7,
   xtime x.s8 ^^^ (xtime x.s9 ^^^ x.s9) ^^^ x.s10 ^^^ x.s11,
   x.s8 ^^^ xtime x.s9 ^^^ (xtime x.s10 ^^^ x.s10) ^^^ x.s11,
   x.s8 ^^^ x.s9 ^^^ xtime x.s10 ^^^ (xtime x.s11 ^^^ x.s11),
   (xtime x.s8 ^^^ x.s8) ^^^ x.s9 ^^^ x.s10 ^^^ xtime x.s11,
   xtime x.s12 ^^^ (xtime x.s13 ^^^ x.s13) ^^^ x.s14 ^^^ x.s15,
   x.s12 ^^^ xtime x.s13 ^^^ (xtime x.s14 ^^^ x.s14) ^^^ x.s15,
   x.s12 ^^^ x.s13 ^^^ xtime x.s14 ^^^ (xtime x.s15 ^^^ x.s15),
   (xtime x.s12 ^^^ x.s12) ^^^ x.s13 ^^^ x.s14 ^^^ xtime x.s15⟩

/-- `_mm_aesenc_si128`: one AES round — ShiftRows, SubBytes, MixColumns
(Intel's documented order; SubBytes and ShiftRows commute), then XOR with
the round key. -/
def aesenc (st key : Block) : Block :=
  xorB (mixColumns (subBytes (shiftRows st))) key

/-- `_mm_aesenclast_si128`: the final AES round — ShiftRows, SubBytes (no
MixColumns) and XOR with the round key. -/
def aesenclast (st key : Block) : Block :=
  xorB (subBytes (shiftRows st)) key

/-- `vaeseq_u8`: ARM AESE — AddRoundKey (XOR), then ShiftRows, then
SubBytes (ARM's documented order). -/
def vaeseq_u8 (st key : Block) : Block :=
  subBytes (shiftRows (xorB st key))

/-- `vaesmcq_u8`: ARM AESMC — MixColumns. -/
def vaesmcq_u8 (st : Block) : Block := mixColumns st

/-- A 32-bit lane of the 128-bit register, as its four bytes in memory
order (lane 0 is the least significant doubleword). -/
def lane (x : Block) : Nat → Nat × Nat × Nat × Nat
  | 0 => (x.s0, x.s1, x.s2, x.s3)
  | 1 => (x.s4, x.s5, x.s6, x.s7)
  | 2 => (x.s8, x.s9, x.s10, x.s11)
  | 3 => (x.s12, x.s13, x.s14, x.s15)
  | _ + 4 => (0, 0, 0, 0)

/-- Reassemble a block from four 32-bit lanes. -/
def ofLanes (l0 l1 l2 l3 : Nat × Nat × Nat × Nat) : Block :=
  ⟨l0.1, l0.2.1, l0.2.2.1, l0.2.2.2,
   l1.1, l1.2.1, l1.2.2.1, l1.2.2.2,
   l2.1, l2.2.1, l2.2.2.1, l2.2.2.2,
   l3.1, l3.2.1, l3.2.2.1, l3.2.2.2⟩

/-- `_mm_shuffle_ps(a, b, imm)`: lanes 0 and 1 of the result are selected
from `a` by the two low 2-bit fields of `imm`, lanes 2 and 3 from `b` by the
next two fields. -/
def shufflePs (a b : Block) (imm : Nat) : Block :=
  ofLanes (lane a (imm % 4)) (lane a (imm / 4 % 4))
    (lane b (imm / 16 % 4)) (lane b (imm / 64 % 4))

/-- `_mm_shuffle_epi32(a, imm)`: all four result lanes selected from `a` by
the four 2-bit fields of `imm`. -/
def shuffleEpi32 (a : Block) (imm : Nat) : Block :=
  ofLanes (lane a (imm % 4)) (lane a (imm / 4 % 4))
    (lane a (imm / 16 % 4)) (lane a (imm / 64 % 4))

/-- `_mm_aeskeygenassist_si128(a, rcon)`: with `X1` and `X3` the second and
fourth lanes of `a`, the result lanes are `SubWord(X1)`,
`RotWord(SubWord(X1)) ^ rcon`, `SubWord(X3)`, `RotWord(SubWord(X3)) ^ rcon`
(`RotWord` rotates the word right by one byte in memory order; `rcon` lands
in the low byte). -/
def aeskeygenassist (a : Block) (rc : Nat) : Block :=
  ⟨sbox a.s4, sbox a.s5, sbox a.s6, sbox a.s7,
   sbox a.s5 ^^^ rc, sbox a.s6, sbox a.s7, sbox a.s4,
   sbox a.s12, sbox a.s13, sbox a.s14, sbox a.s15,
   sbox a.s13 ^^^ rc, sbox a.s14, sbox a.s15, sbox a.s12⟩

/-- The body of `expand_assist_x86!(v1, _, v3, v1, 255, ac)`: the
keygen-assist value is folded into `v1` through two `_mm_shuffle_ps` /
XOR steps and a lane-3 broadcast.  Returns the new `(v1, v3)`. -/
def expandAssist (v1 v3 : Block) (rc : Nat) : Block × Block :=
  let v2 := aeskeygenassist v1 rc
  let v3a := shufflePs v3 v1 16
  let v1a := xorB v1 v3a
  let v3b := shufflePs v3a v1a 140
  let v1b := xorB v1a v3b
  let v2a := shuffleEpi32 v2 255
  (xorB v1b v2a, v3b)

/-- The ten `expand_assist_x86!` invocations of `aes_init`, threading the
`x0`/`x2` registers and collecting each new `x0`. -/
def expandRounds (k s : Block) : List Nat → List Block
  | [] => []
  | rc :: rcs =>
    let p := expandAssist k s rc
    p.1 :: expandRounds p.1 p.2 rcs

/-- The round-constant immediates of the ten `expand_assist_x86!` calls. -/
def rcons : List Nat := [1, 2, 4, 8, 16, 32, 64, 128, 27, 54]

/-- `struct Aes([Block; 11])`: the 11-entry round-key schedule. -/
structure Aes where
  keys : List Block
  deriving DecidableEq

/-- `Aes::aes_init` (x86 backend): `kp[0] = key`, then ten
`expand_assist_x86!` steps starting from `x2 = 0` produce `kp[1..=10]`. -/
def aes_init (key : Block) : Aes :=
  ⟨key :: expandRounds key blockZero rcons⟩

/-- `Aes::encrypt_backend` (x86): XOR with round key 0, `_mm_aesenc_si128`
with round keys 1..9 (`self.0[1..10]`), then `_mm_aesenclast_si128` with
round key 10. -/
def encrypt_backend (a : Aes) (blk : Block) : Block :=
  let c0 := xorB blk (a.keys.getD 0 blockZero)
  let c9 := ((a.keys.drop 1).take 9).foldl aesenc c0
  aesenclast c9 (a.keys.getD 10 blockZero)

/-- `Aes::encrypt_block`: dispatches to the backend. -/
def encrypt_block (a : Aes) (blk : Block) : Block := encrypt_backend a blk

/-- `Aes::encrypt_backend` (aarch64): `vaesmcq_u8(vaeseq_u8(ctxt, key))`
with round keys 0..8 (`self.0.iter().take(9)`), then
`veorq_u8(vaeseq_u8(ctxt, self.0[9]), self.0[10])`. -/
def encrypt_backend_arm (a : Aes) (blk : Block) : Block :=
  let c := (a.keys.take 9).foldl (fun s k => vaesmcq_u8 (vaeseq_u8 s k)) blk
  xorB (vaeseq_u8 c (a.keys.getD 9 blockZero)) (a.keys.getD 10 blockZero)

/-- Modelled from the spec: the aarch64 `aes_init` uses the crate's sse2neon
emulation macros (`_mm_aeskeygenassist_si128!`, `_mm_shuffle_ps!`,
`_mm_shuffle_epi32!`, `_mm_xor_si128!` and the `AES_SBOX` table), whose
definitions are not under `src/`.  Per spec §4.3 the ARM path obtains "the
same S-box substitution ... combined with explicit rotation", i.e. each
emulated macro computes the same function as the x86 intrinsic it stands
for. -/
def aeskeygenassist_neon : Block → Nat → Block := aeskeygenassist

/-- Modelled from the spec: the sse2neon `_mm_shuffle_ps!` emulation. -/
def shufflePs_neon : Block → Block → Nat → Block := shufflePs

/-- Modelled from the spec: the sse2neon `_mm_shuffle_epi32!` emulation. -/
def shuffleEpi32_neon : Block → Nat → Block := shuffleEpi32

/-- The body of `expand_assist_arm!`, textually identical to
`expand_assist_x86!` but built from the emulated macros. -/
def expandAssistArm (v1 v3 : Block) (rc : Nat) : Block × Block :=
  let v2 := aeskeygenassist_neon v1 rc
  let v3a := shufflePs_neon v3 v1 16
  let v1a := xorB v1 v3a
  let v3b := shufflePs_neon v3a v1a 140
  let v1b := xorB v1a v3b
  let v2a := shuffleEpi32_neon v2 255
  (xorB v1b v2a, v3b)

/-- The ten `expand_assist_arm!` invocations of the aarch64 `aes_init`. -/
def expandRoundsArm (k s : Block) : List Nat → List Block
  | [] => []
  | rc :: rcs =>
    let p := expandAssistArm k s rc
    p.1 :: expandRoundsArm p.1 p.2 rcs

/-- `Aes::aes_init` (aarch64 backend). -/
def aes_init_arm (key : Block) : Aes :=
  ⟨key :: expandRoundsArm key blockZero rcons⟩


/-! ### Batch and slice encryption (`encrypt_many_blocks`,
`encrypt_block_slice`) -/

/-- `Aes::unsafe_encrypt_many_blocks` (x86): XOR round key 0 into every
block, then for each round key 1..9 run `_mm_aesenc_si128` across all
blocks (the interleaved loop order), then `_mm_aesenclast_si128` with round
key 10 across all blocks. -/
def unsafe_encrypt_many_blocks (a : Aes) (blks : List Block) : List Block :=
  let c0 := blks.map (fun b => xorB b (a.keys.getD 0 blockZero))
  let c9 := ((a.keys.drop 1).take 9).foldl
    (fun cs k => cs.map (fun c => aesenc c k)) c0
  c9.map (fun c => aesenclast c (a.keys.getD 10 blockZero))

/-- `Aes::encrypt_many_blocks`: dispatches to the backend. -/
def encrypt_many_blocks (a : Aes) (blks : List Block) : List Block :=
  unsafe_encrypt_many_blocks a blks

/-- `Aes::encrypt_block_slice`: encrypt maximal batches of 8 blocks in
place, then dispatch the remainder (1..7 blocks) to a batch of exactly the
remainder size (`encrypt_some!(1)` .. `encrypt_some!(7)`). -/
def encrypt_block_slice (a : Aes) : List Block → List Block
  | [] => []
  | [b0] => encrypt_many_blocks a [b0]
  | [b0, b1] => encrypt_many_blocks a [b0, b1]
  | [b0, b1, b2] => encrypt_many_blocks a [b0, b1, b2]
  | [b0, b1, b2, b3] => encrypt_many_blocks a [b0, b1, b2, b3]
  | [b0, b1, b2, b3, b4] => encrypt_many_blocks a [b0, b1, b2, b3, b4]
  | [b0, b1, b2, b3, b4, b5] => encrypt_many_blocks a [b0, b1, b2, b3, b4, b5]
  | [b0, b1, b2, b3, b4, b5, b6] =>
    encrypt_many_blocks a [b0, b1, b2, b3, b4, b5, b6]
  | b0 :: b1 :: b2 :: b3 :: b4 :: b5 :: b6 :: b7 :: rest =>
    encrypt_many_blocks a [b0, b1, b2, b3, b4, b5, b6, b7] ++
      encrypt_block_slice a rest

/-! ### The FIPS-197 specification side

These definitions follow the specification's words (§4.3): the standard
AES-128 key schedule (rotate the last word, substitute through the S-box,
XOR a doubling round constant, then the XOR recurrence across the four
words) and the standard round structure (SubBytes, ShiftRows, MixColumns,
AddRoundKey, with MixColumns omitted in the final round). -/

/-- One round of the standard AES-128 key schedule: `temp =
SubWord(RotWord(w3)) ^ rcon`, then `n0 = w0 ^ temp`, `n1 = w1 ^ n0`,
`n2 = w2 ^ n1`, `n3 = w3 ^ n2`. -/
def ksRoundSpec (k : Block) (rc : Nat) : Block :=
  let t0 := sbox k.s13 ^^^ rc
  let t1 := sbox k.s14
  let t2 := sbox k.s15
  let t3 := sbox k.s12
  let n0 := k.s0 ^^^ t0
  let n1 := k.s1 ^^^ t1
  let n2 := k.s2 ^^^ t2
  let n3 := k.s3 ^^^ t3
  let n4 := k.s4 ^^^ n0
  let n5 := k.s5 ^^^ n1
  let n6 := k.s6 ^^^ n2
  let n7 := k.s7 ^^^ n3
  let n8 := k.s8 ^^^ n4
  let n9 := k.s9 ^^^ n5
  let n10 := k.s10 ^^^ n6
  let n11 := k.s11 ^^^ n7
  let n12 := k.s12 ^^^ n8
  let n13 := k.s13 ^^^ n9
  let n14 := k.s14 ^^^ n10
  let n15 := k.s15 ^^^ n11
  ⟨n0, n1, n2, n3, n4, n5, n6, n7, n8, n9, n10, n11, n12, n13, n14, n15⟩

/-- The standard key schedule iterated over a round-constant list. -/
def ksRounds (k : Block) : List Nat → List Block
  | [] => []
  | rc :: rcs =>
    let n := ksRoundSpec k rc
    n :: ksRounds n rcs

/-- The standard AES-128 round-key schedule (round constants
1, 2, 4, ..., 27, 54). -/
def keyScheduleSpec (key : Block) : List Block := key :: ksRounds key rcons

/-- Standard AES-128 encryption per FIPS-197: AddRoundKey with round key 0;
nine rounds of SubBytes, ShiftRows, MixColumns, AddRoundKey; a final round
of SubBytes, ShiftRows, AddRoundKey. -/
def encryptSpec (key blk : Block) : Block :=
  let ks := keyScheduleSpec key
  let c0 := xorB blk (ks.getD 0 blockZero)
  let c9 := ((ks.drop 1).take 9).foldl
    (fun s k => xorB (mixColumns (shiftRows (subBytes s))) k) c0
  xorB (shiftRows (subBytes c9)) (ks.getD 10 blockZero)

/-- Key of the FIPS-197 known-answer test: bytes 00 01 02 ... 0f. -/
def katKey : Block :=
  ⟨0x00, 0x01, 0x02, 0x03, 0x04, 0x05, 0x06, 0x07,
   0x08, 0x09, 0x0a, 0x0b, 0x0c, 0x0d, 0x0e, 0x0f⟩

/-- Plaintext of the known-answer test: bytes 00 11 22 ... ff. -/
def katPt : Block :=
  ⟨0x00, 0x11, 0x22, 0x33, 0x44, 0x55, 0x66, 0x77,
   0x88, 0x99, 0xaa, 0xbb, 0xcc, 0xdd, 0xee, 0xff⟩

/-- Expected ciphertext of the known-answer test:
`69c4e0d86a7b0430d8cdb78070b4c55a`. -/
def katCt : Block :=
  ⟨0x69, 0xc4, 0xe0, 0xd8, 0x6a, 0x7b, 0x04, 0x30,
   0xd8, 0xcd, 0xb7, 0x80, 0x70, 0xb4, 0xc5, 0x5a⟩


/-! ### AES claims -/

/-- XOR on `Nat` is left-commutative (used to normalise XOR expressions). -/
theorem nat_xor_left_comm (a b c : Nat) : a ^^^ (b ^^^ c) = b ^^^ (a ^^^ c) := by
  rw [← Nat.xor_assoc, Nat.xor_comm a b, Nat.xor_assoc]

/-- SubBytes (bytewise) and ShiftRows (a byte permutation) commute. -/
theorem subBytes_shiftRows_comm (b : Block) :
    subBytes (shiftRows b) = shiftRows (subBytes b) := rfl

/-- One `expand_assist_x86!` step computes one round of the standard AES-128
key schedule, provided lane 0 of the threaded `x2` register is zero — an
invariant the step preserves (`x2` starts as `_mm_setzero_si128()`). -/
theorem expandAssist_spec (k s : Block) (rc : Nat)
    (h0 : s.s0 = 0) (h1 : s.s1 = 0) (h2 : s.s2 = 0) (h3 : s.s3 = 0) :
    (expandAssist k s rc).1 = ksRoundSpec k rc ∧
    (expandAssist k s rc).2.s0 = 0 ∧ (expandAssist k s rc).2.s1 = 0 ∧
    (expandAssist k s rc).2.s2 = 0 ∧ (expandAssist k s rc).2.s3 = 0 := by
  obtain ⟨a0, a1, a2, a3, a4, a5, a6, a7, a8, a9, a10, a11, a12, a13, a14, a15⟩ := k
  obtain ⟨u0, u1, u2, u3, u4, u5, u6, u7, u8, u9, u10, u11, u12, u13, u14, u15⟩ := s
  simp only at h0 h1 h2 h3
  subst h0; subst h1; subst h2; subst h3
  refine ⟨?_, rfl, rfl, rfl, rfl⟩
  simp only [expandAssist, aeskeygenassist, shufflePs, shuffleEpi32, lane,
    ofLanes, xorB, ksRoundSpec]
  simp [Block.mk.injEq, Nat.xor_assoc, Nat.xor_comm, nat_xor_left_comm]

/-- The chained `expand_assist_x86!` rounds equal the standard key-schedule
rounds for any round-constant list, given the lane-0 invariant. -/
theorem expandRounds_spec : ∀ (rcs : List Nat) (k s : Block),
    s.s0 = 0 → s.s1 = 0 → s.s2 = 0 → s.s3 = 0 →
    expandRounds k s rcs = ksRounds k rcs
  | [], _, _, _, _, _, _ => rfl
  | rc :: rcs, k, s, h0, h1, h2, h3 => by
    obtain ⟨e, z0, z1, z2, z3⟩ := expandAssist_spec k s rc h0 h1 h2 h3
    simp only [expandRounds, ksRounds]
    rw [expandRounds_spec rcs _ _ z0 z1 z2 z3, e]

/-- The x86 `aes_init` produces exactly the standard AES-128 round-key
schedule. -/
theorem aes_init_eq_spec (key : Block) :
    aes_init key = ⟨keyScheduleSpec key⟩ := by
  unfold aes_init keyScheduleSpec
  rw [expandRounds_spec rcons key blockZero rfl rfl rfl rfl]

/-- The x86 backend encrypts exactly as the FIPS-197 specification. -/
theorem encrypt_block_eq_spec (key pt : Block) :
    encrypt_block (aes_init key) pt = encryptSpec key pt := by
  rw [encrypt_block, aes_init_eq_spec]
  unfold encrypt_backend encryptSpec
  have hfun : aesenc = fun s k => xorB (mixColumns (shiftRows (subBytes s))) k := by
    funext s k
    unfold aesenc
    rw [subBytes_shiftRows_comm]
  have hlast : ∀ c k, aesenclast c k = xorB (shiftRows (subBytes c)) k := by
    intro c k
    unfold aesenclast
    rw [subBytes_shiftRows_comm]
  rw [hfun, hlast]

/-- C1: `Aes::new` followed by `encrypt_block` computes standard FIPS-197
AES-128 on every key and plaintext, and in particular maps the standard
test vector (key `000102...0f`, plaintext `00112233...eeff`) to
`69c4e0d86a7b0430d8cdb78070b4c55a`. -/
theorem C1_aes_matches_fips :
    (∀ key pt : Block, encrypt_block (aes_init key) pt = encryptSpec key pt) ∧
    encrypt_block (aes_init katKey) katPt = katCt :=
  ⟨encrypt_block_eq_spec, by decide⟩

/-- C2: the x86 and ARM backends produce bit-identical 11-entry round-key
schedules for every key, and bit-identical ciphertexts for every key and
plaintext, although their round decompositions differ. -/
theorem C2_backends_agree :
    (∀ key : Block, aes_init_arm key = aes_init key ∧
      (aes_init_arm key).keys.length = 11) ∧
    (∀ key pt : Block,
      encrypt_backend_arm (aes_init_arm key) pt =
        encrypt_backend (aes_init key) pt) :=
  ⟨fun _ => ⟨rfl, rfl⟩, fun _ _ => rfl⟩


/-- Applying the rounds batch-wise (outer loop over round keys) is the same
as running the full round chain independently per block. -/
theorem foldl_map_aesenc : ∀ (ks cs : List Block),
    ks.foldl (fun cs k => cs.map (fun c => aesenc c k)) cs =
      cs.map (fun c => ks.foldl aesenc c)
  | [], cs => by simp
  | k :: ks, cs => by
    simp only [List.foldl_cons]
    rw [foldl_map_aesenc ks (cs.map (fun c => aesenc c k)), List.map_map]
    rfl

/-- Batch encryption is pointwise single-block encryption. -/
theorem encrypt_many_eq_map (a : Aes) (blks : List Block) :
    encrypt_many_blocks a blks = blks.map (encrypt_block a) := by
  unfold encrypt_many_blocks unsafe_encrypt_many_blocks
  dsimp only
  rw [foldl_map_aesenc, List.map_map, List.map_map]
  rfl

/-- Slice encryption is pointwise single-block encryption, for every length
(every batch count and every remainder class mod 8). -/
theorem encrypt_block_slice_eq_map (a : Aes) : ∀ bs : List Block,
    encrypt_block_slice a bs = bs.map (encrypt_block a)
  | [] => rfl
  | [b0] => by
    simp only [encrypt_block_slice]
    rw [encrypt_many_eq_map]
  | [b0, b1] => by
    simp only [encrypt_block_slice]
    rw [encrypt_many_eq_map]
  | [b0, b1, b2] => by
    simp only [encrypt_block_slice]
    rw [encrypt_many_eq_map]
  | [b0, b1, b2, b3] => by
    simp only [encrypt_block_slice]
    rw [encrypt_many_eq_map]
  | [b0, b1, b2, b3, b4] => by
    simp only [encrypt_block_slice]
    rw [encrypt_many_eq_map]
  | [b0, b1, b2, b3, b4, b5] => by
    simp only [encrypt_block_slice]
    rw [encrypt_many_eq_map]
  | [b0, b1, b2, b3, b4, b5, b6] => by
    simp only [encrypt_block_slice]
    rw [encrypt_many_eq_map]
  | b0 :: b1 :: b2 :: b3 :: b4 :: b5 :: b6 :: b7 :: rest => by
    simp only [encrypt_block_slice]
    rw [encrypt_many_eq_map, encrypt_block_slice_eq_map a rest]
    simp

/-- C3: for every cipher and every block list, `encrypt_many_blocks` returns
at each index the single-block encryption of that index's input, and
`encrypt_block_slice` (any length `M ≥ 0`, hence every remainder class
mod 8) replaces each block with its single-block encryption. -/
theorem C3_batch_and_slice_pointwise (a : Aes) (blks : List Block) :
    encrypt_many_blocks a blks = blks.map (encrypt_block a) ∧
    encrypt_block_slice a blks = blks.map (encrypt_block a) :=
  ⟨encrypt_many_eq_map a blks, encrypt_block_slice_eq_map a blks⟩

end PrimusFhe
